import Mathlib

/-
Formal model of the calour experiment-table library.

An experiment is a samples-by-features abundance matrix together with a
sample-metadata table, a feature-metadata table and a free-form
experiment-metadata dictionary.  The matrix is modelled as a list of rows
(each row one sample) over the rationals; metadata tables are modelled by
their identifier sequences (plus explicit column data where a claim needs
it).  Floating point arithmetic is modelled exactly over the rationals.

Each definition below follows the corresponding Python function from the
repository (`calour/io.py`, `calour/transforming.py`, `calour/sorting.py`);
the few primitives whose Python source is not part of the provided files
(`Experiment.reorder`, `filter_by_metadata`) are modelled from the
specification and marked as such in their doc comments.
-/

namespace Calour

/-- Python dict assignment `d[k] = v` on an association list: replace the
binding in place if the key is present, otherwise append it at the end
(Python dicts preserve insertion order). -/
def dictSet {β : Type} (d : List (String × β)) (k : String) (v : β) : List (String × β) :=
  match d with
  | [] => [(k, v)]
  | (k', v') :: rest => if k' = k then (k, v) :: rest else (k', v') :: dictSet rest k v

/-- The calour `Experiment`: `data` is the samples-by-features matrix (one
list per sample row), `sample_metadata` / `feature_metadata` are the
identifier sequences of the two metadata tables (row order equals matrix
row / column order), `exp_metadata` is the free-form metadata dict. -/
structure Experiment where
  data : List (List ℚ)
  sample_metadata : List String
  feature_metadata : List String
  exp_metadata : List (String × ℚ)
deriving Repr, DecidableEq

/-- A Python numeric argument as received by `normalize` / `rescale`:
`bool` is a separate constructor because the Python code explicitly
rejects `isinstance(total, bool)` before comparing it as a number. -/
inductive PyNum where
  | bool (b : Bool)
  | num (q : ℚ)
deriving Repr, DecidableEq

/-- sklearn `preprocessing.normalize(X, norm='l1', axis=1)`: every row is
divided by its L1 norm; a zero norm is replaced by 1 before dividing
(sklearn `norms[norms == 0.0] = 1.0`), so all-zero rows pass through. -/
def l1NormalizeRows (m : List (List ℚ)) : List (List ℚ) :=
  m.map fun row =>
    let n := (row.map (fun x => |x|)).sum
    let n' := if n = 0 then 1 else n
    row.map (fun x => x / n')

/-- Elementwise multiplication of a matrix by a scalar (`array * total`). -/
def scaleRows (t : ℚ) (m : List (List ℚ)) : List (List ℚ) :=
  m.map (List.map (fun x => x * t))

/-- calour `transforming.normalize(exp, total, axis)`: reject a boolean
`total`, reject `total <= 0`, L1-normalize each sample row (axis 0) or each
feature column (axis 1), multiply by `total`, and record `total` under the
key `"normalized"` in `exp_metadata`. -/
def normalize (exp : Experiment) (total : PyNum) (axis : Nat) : Except String Experiment :=
  match total with
  | .bool _ => .error "Normalization total not numeric"
  | .num t =>
    if t ≤ 0 then .error "Normalization total must be positive"
    else .ok { exp with
      data := if axis = 0 then scaleRows t (l1NormalizeRows exp.data)
              else scaleRows t (l1NormalizeRows exp.data.transpose).transpose,
      exp_metadata := dictSet exp.exp_metadata "normalized" t }

/-- calour `transforming.rescale(exp, total, axis)`: reject a boolean
`total` (any other rational, zero and negatives included, is accepted),
then multiply every entry by `total` and divide by the mean of the
per-row (axis 0) or per-column (axis 1) sums.  Metadata is untouched. -/
def rescale (exp : Experiment) (total : PyNum) (axis : Nat) : Except String Experiment :=
  match total with
  | .bool _ => .error "Rescaling total not numeric"
  | .num t =>
    let sums := if axis = 0 then exp.data.map List.sum else exp.data.transpose.map List.sum
    let current_mean := sums.sum / (sums.length : ℚ)
    .ok { exp with data := exp.data.map (List.map (fun x => x * t / current_mean)) }

/-- Sum of the entries of `row` in the positions where `mask` is true
(numpy `np.sum(data[:, feature_pos], axis=1)` for one row). -/
def maskedRowSum (mask : List Bool) (row : List ℚ) : ℚ :=
  (((mask.zip row).filter (fun p => p.1)).map (fun p => p.2)).sum

/-- The column mask computed by `normalize_by_subset_features`:
`feature_pos = exp.feature_metadata.index.isin(features)`, inverted when
`negate` is true. -/
def subsetMask (featureIds : List String) (features : List String) (negate : Bool) : List Bool :=
  featureIds.map (fun f => if negate then !(features.contains f) else features.contains f)

/-- calour `transforming.normalize_by_subset_features(exp, features, total,
negate)`: per sample, sum the entries of the masked columns only
(`use_reads`), then divide the whole row (all features) by that partial sum
and multiply by `total`; record `total` under `"normalized"`. -/
def normalize_by_subset_features (exp : Experiment) (features : List String)
    (total : ℚ) (negate : Bool) : Experiment :=
  let feature_pos := subsetMask exp.feature_metadata features negate
  { exp with
    data := exp.data.map (fun row =>
      let use_reads := maskedRowSum feature_pos row
      row.map (fun x => total * x / use_reads)),
    exp_metadata := dictSet exp.exp_metadata "normalized" total }

/-- Select the elements of `l` at the given positions, in the order the
positions are listed (numpy fancy indexing `l[pos]`). -/
def selectPositions {α : Type} (l : List α) (pos : List Nat) : List α :=
  pos.filterMap (fun i => l[i]?)

/-- Modelled from the spec: `Experiment.reorder` lives in
`calour/experiment.py`, which is not among the provided source files.  Per
spec section 4.2 it selects matrix rows (axis 0) or columns (axis 1)
according to the position list, applies the identical selection to the
metadata table of that axis, and leaves the opposite-axis table untouched. -/
def reorder (exp : Experiment) (pos : List Nat) (axis : Nat) : Experiment :=
  if axis = 0 then
    { exp with data := selectPositions exp.data pos,
               sample_metadata := selectPositions exp.sample_metadata pos }
  else
    { exp with data := exp.data.map (fun r => selectPositions r pos),
               feature_metadata := selectPositions exp.feature_metadata pos }

/-- The position list computed by calour `sorting.sort_ids`: for each id in
`ids` that occurs in the index, its position (`index.get_loc`), followed by
`np.setdiff1d(np.arange(len(index)), okpos)` — the remaining positions in
ascending (i.e. original) order. -/
def sort_idsPos (index : List String) (ids : List String) : List Nat :=
  let okpos := ids.filterMap (fun cid =>
    if index.contains cid then some (index.indexOf cid) else none)
  okpos ++ (List.range index.length).filter (fun i => !(okpos.contains i))

/-- calour `sorting.sort_ids(exp, ids, axis)`: put the listed identifiers
first (in the given order, skipping ones absent from the experiment), then
all remaining identifiers in their original order; delegate to `reorder`. -/
def sort_ids (exp : Experiment) (ids : List String) (axis : Nat) : Experiment :=
  let index := if axis = 0 then exp.sample_metadata else exp.feature_metadata
  reorder exp (sort_idsPos index ids) axis

/-- The contract of `np.argsort(values)` (default kind, quicksort): the
result is a permutation of `range len(values)` along which the values are
ascending.  numpy documents the default kind as NOT stable, so nothing
more is assumed about the order of tied values. -/
def IsSortingPerm (values : List ℚ) (perm : List Nat) : Prop :=
  List.Perm perm (List.range values.length) ∧
    (perm.map (fun i => values.getD i 0)).Sorted (· ≤ ·)

/-- The per-row (axis 0) or per-column (axis 1) scalars computed by
`sort_by_data`: the data restricted to `subset` on the opposite axis, then
`np.apply_along_axis(key, 1 - axis, data_subset)`. -/
def sortValues (key : List ℚ → ℚ) (exp : Experiment) (axis : Nat)
    (subset : Option (List Nat)) : List ℚ :=
  let data_subset := match subset with
    | none => exp.data
    | some s => if axis = 0 then exp.data.map (fun row => selectPositions row s)
                else selectPositions exp.data s
  if axis = 0 then data_subset.map key else data_subset.transpose.map key

/-- calour `sorting.sort_by_data(exp, axis, subset, key, reverse)` (dense
path): restrict the data to `subset` on the axis opposite to `axis`, apply
`key` along that opposite axis to get one scalar per row (axis 0) or per
column (axis 1), argsort the scalars, reverse the position list if
`reverse`, and delegate to `reorder`.  `argsort` is the numpy primitive,
kept abstract (see `IsSortingPerm`). -/
def sort_by_data (argsort : List ℚ → List Nat) (key : List ℚ → ℚ)
    (exp : Experiment) (axis : Nat) (subset : Option (List Nat)) (reverse : Bool) : Experiment :=
  let values := sortValues key exp axis subset
  let sort_pos := argsort values
  let sort_pos' := if reverse then sort_pos.reverse else sort_pos
  reorder exp sort_pos' axis

/-- numpy `np.mean` on a one-dimensional array, the `'mean'` entry of the
`key` dispatch table of `sort_by_data`. -/
def meanKey (row : List ℚ) : ℚ :=
  row.sum / (row.length : ℚ)

/-- A sorting permutation that numpy's (unstable) default argsort is
permitted to return on a list of tied values: the reversed range.  Used to
exhibit that `sort_by_data` does not guarantee a stable tie order. -/
def tieBreakArgsort (v : List ℚ) : List Nat :=
  (List.range v.length).reverse

/-- Modelled from the spec: `filter_by_metadata` lives in
`calour/filtering.py`, which is not among the provided source files (only
its tests are).  Per spec section 4.2 it keeps the rows (or columns) whose
metadata `field` value is in `selection`, with `negate = true` inverting
the selection; a table here is the list of (identifier, field value)
pairs of the filtered axis. -/
def filter_by_metadata (table : List (String × ℚ)) (selection : List ℚ)
    (negate : Bool) : List (String × ℚ) :=
  table.filter (fun r => xor (selection.contains r.2) negate)

/-- Select the elements of `l` whose entry in the boolean mask is true
(pandas/numpy boolean-mask row selection, as used by `reorder` on the
`sfilter` mask in `read`). -/
def applyMask {α : Type} (l : List α) (mask : List Bool) : List α :=
  ((l.zip mask).filter (fun p => p.2)).map (fun p => p.1)

/-- Result of the sample-metadata alignment step of `read`: the sample-id
sequence of the matrix and the aligned metadata table (one row per kept
sample id; `none` stands for the all-NaN row `DataFrame.loc` produces for
an id with no metadata). -/
structure AlignResult (α : Type) where
  sids : List String
  sample_metadata : List (String × Option α)
deriving Repr, DecidableEq

/-- The sample-metadata alignment of calour `io.read(data_file,
sample_metadata_file, ..., drop)`: `sdiff` is the set of sample ids with
data but no metadata row; `sfilter` masks those out; the metadata table is
re-indexed by `sample_metadata.loc[sid, ]` (ids missing from the table get
a NaN row, ids absent from `sid` are dropped); when `drop` is true the
`sfilter` mask is applied to both the matrix ids and the metadata. -/
def read {α : Type} (sid : List String) (md : List (String × α)) (drop : Bool) :
    AlignResult α :=
  let mdIndex := md.map (fun r => r.1)
  let sdiff := sid.filter (fun i => !(mdIndex.contains i))
  let sfilter := sid.map (fun i => !(sdiff.contains i))
  let aligned := sid.map (fun i => (i, List.lookup i md))
  if drop then
    { sids := applyMask sid sfilter, sample_metadata := applyMask aligned sfilter }
  else
    { sids := sid, sample_metadata := aligned }

/-- One FASTA record as written by `save_fasta`: the header line (without
the leading marker) and the sequence line. -/
structure FastaRecord where
  header : String
  seq : String
deriving Repr, DecidableEq

/-- The loop body of calour `io.save_fasta`: `idx` is the enumerate
counter; sequences absent from the feature-metadata index are skipped (the
counter still advances); the header is `"<idx> <taxonomy[cseq]>"` when the
taxonomy column exists, otherwise `"<idx> <cseq>"`. -/
def save_fastaAux (fmIndex : List String) (taxonomy : Option (String → String)) :
    Nat → List String → List FastaRecord
  | _, [] => []
  | idx, cseq :: rest =>
    if fmIndex.contains cseq then
      let cheader := match taxonomy with
        | some tax => toString idx ++ " " ++ tax cseq
        | none => toString idx ++ " " ++ cseq
      { header := cheader, seq := cseq } :: save_fastaAux fmIndex taxonomy (idx + 1) rest
    else save_fastaAux fmIndex taxonomy (idx + 1) rest

/-- calour `io.save_fasta(exp, f, seqs)`: the list of FASTA records written
to the file, given the feature-metadata index, the optional taxonomy
column (a label lookup, present iff the column exists) and the requested
sequences. -/
def save_fasta (fmIndex : List String) (taxonomy : Option (String → String))
    (seqs : List String) : List FastaRecord :=
  save_fastaAux fmIndex taxonomy 0 seqs

/-- Python `key.split('__')` specialised to the separator `"__"` used by
calour `transforming.transform`: split at each leftmost non-overlapping
occurrence of two consecutive underscores.  (`String.splitOn` is avoided
only because it does not reduce in the kernel; this recursion implements
the same Python semantics directly.) -/
def splitKeyAux : List Char → List Char → List String
  | '_' :: '_' :: rest, acc => String.mk acc.reverse :: splitKeyAux rest []
  | c :: rest, acc => splitKeyAux rest (c :: acc)
  | [], acc => [String.mk acc.reverse]

/-- Python `k.split('__')` on a routed keyword key. -/
def splitKey (k : String) : List String :=
  splitKeyAux k.toList []

/-- One named transform step of the `transform` pipeline: the Python
callable's `__name__` and its action on an experiment given the keyword
arguments routed to it. -/
structure TStep where
  name : String
  fn : Experiment → List (String × ℚ) → Experiment

/-- Processing of one routed keyword argument by `transform`:
`transformer, param_name = k.split('__')` raises when the split does not
have exactly two parts, and a `param_name` of `"inplace"` is rejected. -/
def routeOne (kv : String × ℚ) : Except String (String × String × ℚ) :=
  match splitKey kv.1 with
  | [transformer, param_name] =>
    if param_name = "inplace" then
      .error "You should not give inplace argument."
    else .ok (transformer, param_name, kv.2)
  | _ => .error "not enough values to unpack"

/-- Assignment `params[transformer][param_name] = v` on the
`defaultdict(dict)` of `transform`, as an association list of association
lists (insertion order preserved, like Python dicts). -/
def setParam (d : List (String × List (String × ℚ))) (t p : String) (v : ℚ) :
    List (String × List (String × ℚ)) :=
  match d with
  | [] => [(t, [(p, v)])]
  | (k, sub) :: rest =>
    if k = t then (k, dictSet sub p v) :: rest else (k, sub) :: setParam rest t p v

/-- The `params` table built by the kwargs loop of `transform`. -/
def buildParams (routed : List (String × String × ℚ)) :
    List (String × List (String × ℚ)) :=
  routed.foldl (fun d r => setParam d r.1 r.2.1 r.2.2) []

/-- Lookup `params[name]` on the `defaultdict(dict)`: an absent
transformer name yields the empty dict. -/
def getParams (d : List (String × List (String × ℚ))) (name : String) :
    List (String × ℚ) :=
  (d.lookup name).getD []

/-- The kwargs loop of `transform`: process the routed keyword arguments
in order, stopping at the first offending key (Python raises out of the
loop immediately). -/
def routeAll : List (String × ℚ) → Except String (List (String × String × ℚ))
  | [] => .ok []
  | kv :: rest =>
    match routeOne kv with
    | .error e => .error e
    | .ok r =>
      match routeAll rest with
      | .error e => .error e
      | .ok rs => .ok (r :: rs)

/-- calour `transforming.transform(exp, steps, **kwargs)`: route every
keyword argument `"<transformer>__<param>"` to the step of that name
(rejecting malformed keys and any `"...__inplace"` key), then apply the
steps in list order, each receiving exactly its routed parameters. -/
def transform (exp : Experiment) (steps : List TStep)
    (kwargs : List (String × ℚ)) : Except String Experiment :=
  match routeAll kwargs with
  | .error e => .error e
  | .ok routed =>
    let params := buildParams routed
    .ok (steps.foldl (fun e step => step.fn e (getParams params step.name)) exp)

/-- The routed parameters a step named `name` receives, read off directly
from the kwargs list: the suffix-stripped key/value pairs of exactly the
keys `"<name>__<param>"`, in kwargs order. -/
def routedFor (kwargs : List (String × ℚ)) (name : String) : List (String × ℚ) :=
  kwargs.filterMap (fun kv =>
    match splitKey kv.1 with
    | [t, p] => if t = name then some (p, kv.2) else none
    | _ => none)

/-- The (transformer, param, value) triple a well-formed routed key
produces (the fallback value is irrelevant: it is only reached on
malformed keys, on which `transform` errors out instead). -/
def routedTriple (kv : String × ℚ) : String × String × ℚ :=
  match splitKey kv.1 with
  | [t, p] => (t, p, kv.2)
  | _ => ("", "", kv.2)

/-
Shared helper lemmas.
-/

theorem eq_zero_of_sum_eq_zero {l : List ℚ} (h : ∀ x ∈ l, 0 ≤ x) (hs : l.sum = 0) :
    ∀ x ∈ l, x = 0 := by
  induction l with
  | nil => simp
  | cons a t ih =>
    simp only [List.sum_cons] at hs
    have hat : 0 ≤ a := h a (by simp)
    have htt : 0 ≤ t.sum := List.sum_nonneg (fun x hx => h x (by simp [hx]))
    have ha : a = 0 := by linarith
    have ht : t.sum = 0 := by linarith
    intro x hx
    rcases List.mem_cons.mp hx with rfl | hx
    · exact ha
    · exact ih (fun y hy => h y (by simp [hy])) ht x hx

theorem eq_of_mem_of_nodup_keys {β : Type} {l : List (String × β)}
    (h : (l.map Prod.fst).Nodup) {r1 r2 : String × β}
    (h1 : r1 ∈ l) (h2 : r2 ∈ l) (hf : r1.1 = r2.1) : r1 = r2 := by
  induction l with
  | nil => cases h1
  | cons a tl ih =>
    simp only [List.map_cons, List.nodup_cons] at h
    rcases List.mem_cons.mp h1 with rfl | h1' <;> rcases List.mem_cons.mp h2 with rfl | h2'
    · rfl
    · exact absurd (hf ▸ List.mem_map_of_mem Prod.fst h2') h.1
    · exact absurd (hf ▸ List.mem_map_of_mem Prod.fst h1') h.1
    · exact ih h.2 h1' h2'

theorem maskedRowSum_cons (b : Bool) (bs : List Bool) (x : ℚ) (xs : List ℚ) :
    maskedRowSum (b :: bs) (x :: xs) = (if b then x else 0) + maskedRowSum bs xs := by
  cases b <;> simp [maskedRowSum]

theorem maskedRowSum_map_mul (c : ℚ) (mask : List Bool) (row : List ℚ) :
    maskedRowSum mask (row.map (fun x => c * x)) = c * maskedRowSum mask row := by
  induction mask generalizing row with
  | nil => simp [maskedRowSum]
  | cons b bs ih =>
    cases row with
    | nil => simp [maskedRowSum]
    | cons x xs =>
      simp only [List.map_cons, maskedRowSum_cons, ih]
      cases b <;> simp [mul_add]

/-
Claim C7.  `filter_by_metadata` is modelled from the spec (its Python
module is not among the provided sources; its tests are).
-/

/-- C7: selecting by a metadata field with and without `negate` splits the
identifier set of the filtered axis into two disjoint parts whose union is
the whole set, and a selection matching zero entries yields an empty
result (no error: `filter_by_metadata` is total). -/
theorem filter_by_metadata_partition (table : List (String × ℚ)) (S : List ℚ)
    (hnd : (table.map Prod.fst).Nodup) :
    (∀ i, (i ∈ (filter_by_metadata table S false).map Prod.fst ∨
            i ∈ (filter_by_metadata table S true).map Prod.fst) ↔
          i ∈ table.map Prod.fst) ∧
    (∀ i, ¬(i ∈ (filter_by_metadata table S false).map Prod.fst ∧
             i ∈ (filter_by_metadata table S true).map Prod.fst)) ∧
    ((∀ r ∈ table, r.2 ∉ S) → filter_by_metadata table S false = []) := by
  refine ⟨fun i => ?_, fun i => ?_, fun h0 => ?_⟩
  · simp only [filter_by_metadata, List.mem_map, List.mem_filter, Bool.xor_false,
      Bool.xor_true]
    constructor
    · rintro (⟨r, ⟨hr, _⟩, rfl⟩ | ⟨r, ⟨hr, _⟩, rfl⟩) <;> exact ⟨r, hr, rfl⟩
    · rintro ⟨r, hr, rfl⟩
      by_cases hS : S.contains r.2
      · exact Or.inl ⟨r, ⟨hr, by simpa using hS⟩, rfl⟩
      · exact Or.inr ⟨r, ⟨hr, by simpa using hS⟩, rfl⟩
  · rintro ⟨h1, h2⟩
    simp only [filter_by_metadata, List.mem_map, List.mem_filter, Bool.xor_false,
      Bool.xor_true] at h1 h2
    obtain ⟨r1, ⟨hr1, hc1⟩, hf1⟩ := h1
    obtain ⟨r2, ⟨hr2, hc2⟩, hf2⟩ := h2
    have : r1 = r2 :=
      eq_of_mem_of_nodup_keys hnd hr1 hr2 (hf1.trans hf2.symm)
    subst this
    rw [hc1] at hc2
    simp at hc2
  · refine List.filter_eq_nil_iff.mpr fun r hr => ?_
    have : ¬S.contains r.2 := by simpa using h0 r hr
    simpa using this

/-
Claim C9: rescale touches only the data, by one global scalar.
-/

/-- C9: for any non-bool numeric `total` (zero and negative values
included) `rescale` succeeds, leaves `sample_metadata`,
`feature_metadata` and `exp_metadata` untouched (in particular it records
no `"normalized"` key), and multiplies every data entry by the single
scalar `total / mean(per-axis sums)`.  The hypothesis rules out a zero
mean, where numpy would produce non-finite entries instead of numbers. -/
theorem rescale_frame_effect (exp : Experiment) (t : ℚ) (axis : Nat)
    (_hm : (if axis = 0 then exp.data.map List.sum else exp.data.transpose.map List.sum).sum ≠ 0) :
    ∃ e, rescale exp (PyNum.num t) axis = Except.ok e ∧
      e.sample_metadata = exp.sample_metadata ∧
      e.feature_metadata = exp.feature_metadata ∧
      e.exp_metadata = exp.exp_metadata ∧
      e.exp_metadata.lookup "normalized" = exp.exp_metadata.lookup "normalized" ∧
      e.data = exp.data.map (List.map (fun x => x *
        (t / ((if axis = 0 then exp.data.map List.sum else exp.data.transpose.map List.sum).sum /
          (((if axis = 0 then exp.data.map List.sum
             else exp.data.transpose.map List.sum).length : ℚ)))))) := by
  refine ⟨_, rfl, rfl, rfl, rfl, rfl, ?_⟩
  simp only [rescale]
  refine List.map_congr_left fun row _ => List.map_congr_left fun x _ => ?_
  rw [mul_div_assoc]

/-
Claim C6: normalization by a subset of the features.
-/

/-- C6: with `negate = true`, every entry of each row (columns of
`features` included) is divided by the row's sum over the columns NOT in
`features` and multiplied by `total`; consequently each sample's sum over
those complement columns equals `total`, while the full row sum is not
generally `total` (witnessed by a concrete 1-sample experiment whose full
row sum comes out 20 for `total = 10`).  The hypothesis rules out rows
whose complement sum is zero, where numpy would divide by zero. -/
theorem normalize_by_subset_features_spec (exp : Experiment) (features : List String) (t : ℚ)
    (hnz : ∀ row ∈ exp.data,
      maskedRowSum (subsetMask exp.feature_metadata features true) row ≠ 0) :
    (normalize_by_subset_features exp features t true).data =
        exp.data.map (fun row => row.map (fun x =>
          t * x / maskedRowSum (subsetMask exp.feature_metadata features true) row)) ∧
    (∀ row' ∈ (normalize_by_subset_features exp features t true).data,
        maskedRowSum (subsetMask exp.feature_metadata features true) row' = t) ∧
    (normalize_by_subset_features ⟨[[1, 1]], ["S1"], ["F1", "F2"], []⟩
        ["F2"] 10 true).data.map List.sum ≠ [10] := by
  refine ⟨rfl, ?_, by simp [normalize_by_subset_features, subsetMask, maskedRowSum]⟩
  intro row' hrow'
  simp only [normalize_by_subset_features, List.mem_map] at hrow'
  obtain ⟨row, hrow, rfl⟩ := hrow'
  set mask := subsetMask exp.feature_metadata features true with hmask
  have hr : maskedRowSum mask row ≠ 0 := hnz row hrow
  have : (row.map (fun x => t * x / maskedRowSum mask row)) =
      row.map (fun x => (t / maskedRowSum mask row) * x) :=
    List.map_congr_left fun x _ => by ring
  rw [this, maskedRowSum_map_mul, div_mul_cancel₀ _ hr]

/-
Claims C2 and C8: normalize.  Row-level helper lemmas about the composed
per-row action `row.map (x / l1norm) |>.map (x * total)`.
-/

theorem row_normalize_zero (t : ℚ) (row : List ℚ) (hnn : ∀ x ∈ row, 0 ≤ x)
    (hz : row.sum = 0) :
    (row.map (fun x => x /
      (if (row.map (fun x => |x|)).sum = 0 then 1 else (row.map (fun x => |x|)).sum))).map
        (fun x => x * t) = row := by
  rw [List.map_map]
  have h0 := eq_zero_of_sum_eq_zero hnn hz
  calc row.map _ = row.map id := List.map_congr_left fun x hx => by
        simp [h0 x hx]
    _ = row := List.map_id row

theorem row_normalize_pos (t : ℚ) (row : List ℚ) (hnn : ∀ x ∈ row, 0 ≤ x)
    (hz : row.sum ≠ 0) :
    ((row.map (fun x => x /
      (if (row.map (fun x => |x|)).sum = 0 then 1 else (row.map (fun x => |x|)).sum))).map
        (fun x => x * t)).sum = t := by
  have habs : row.map (fun x => |x|) = row := by
    calc row.map (fun x => |x|) = row.map id :=
          List.map_congr_left fun x hx => abs_of_nonneg (hnn x hx)
      _ = row := List.map_id row
  rw [List.map_map, habs, if_neg hz]
  have : ((fun x => x * t) ∘ fun x => x / row.sum) = fun x => id x * (t / row.sum) := by
    funext x; simp [Function.comp, id]; ring
  rw [this, List.sum_map_mul_right, List.map_id, ← mul_div_assoc,
    mul_div_cancel_left₀ _ hz]

theorem dictSet_lookup_self {β : Type} (d : List (String × β)) (k : String) (v : β) :
    (dictSet d k v).lookup k = some v := by
  induction d with
  | nil => simp [dictSet, List.lookup]
  | cons a rest ih =>
    obtain ⟨k', v'⟩ := a
    by_cases h : k' = k
    · simp [dictSet, h, List.lookup]
    · simp only [dictSet, if_neg h]
      rw [List.lookup_cons]
      have : (k == k') = false := by simp [Ne.symm h]
      rw [this]
      exact ih

/-- C2 (amended): for nonnegative data and `total = t > 0`,
`normalize(total=t, axis=0)` succeeds, every row with a nonzero sum is
rescaled to sum exactly `t`, every all-zero-sum row is left unchanged (so
its sum stays 0, not `t` — the sklearn zero-norm guard), the value `t` is
recorded under `exp_metadata["normalized"]`, and a boolean or non-positive
`total` raises an error. -/
theorem normalize_rows_sum_to_total (exp : Experiment) (t : ℚ) (ht : 0 < t)
    (hnn : ∀ row ∈ exp.data, ∀ x ∈ row, 0 ≤ x) :
    ∃ e, normalize exp (PyNum.num t) 0 = Except.ok e ∧
      List.Forall₂ (fun row row' =>
        (row.sum ≠ 0 → row'.sum = t) ∧ (row.sum = 0 → row' = row)) exp.data e.data ∧
      e.exp_metadata.lookup "normalized" = some t ∧
      e.sample_metadata = exp.sample_metadata ∧
      e.feature_metadata = exp.feature_metadata ∧
      (∀ b, ∃ msg, normalize exp (PyNum.bool b) 0 = Except.error msg) ∧
      (∀ t', t' ≤ 0 → ∃ msg, normalize exp (PyNum.num t') 0 = Except.error msg) := by
  have hne : normalize exp (PyNum.num t) 0 = Except.ok
      { exp with data := scaleRows t (l1NormalizeRows exp.data),
                 exp_metadata := dictSet exp.exp_metadata "normalized" t } := by
    simp [normalize, not_le.mpr ht]
  refine ⟨_, hne, ?_, dictSet_lookup_self _ _ _, rfl, rfl, fun b => ⟨_, rfl⟩,
    fun t' ht' => ⟨"Normalization total must be positive", by simp [normalize, ht']⟩⟩
  · simp only [scaleRows, l1NormalizeRows, List.map_map]
    rw [List.forall₂_map_right_iff, List.forall₂_same]
    intro row hrow
    exact ⟨fun hs => row_normalize_pos t row (hnn row hrow) hs,
      fun hs => row_normalize_zero t row (hnn row hrow) hs⟩

/-- C2 counterexample: on the spec's own example matrix
`[[1,2,3],[0,0,0]]` with `total = 10`, the all-zero second row of the
result sums to 0, not 10, so "every row of data sums to T" is false as
stated. -/
theorem normalize_total_zero_row_cex :
    (normalize ⟨[[1, 2, 3], [0, 0, 0]], ["S1", "S2"], ["F1", "F2", "F3"], []⟩
        (PyNum.num 10) 0).toOption.map (fun e => (e.data.getD 1 []).sum) = some 0 ∧
    (0 : ℚ) ≠ 10 := by
  constructor
  · norm_num [normalize, l1NormalizeRows, scaleRows, Except.toOption]
  · norm_num

/-- C8: with nonnegative data containing an all-zero row,
`normalize(total=t, axis=0)` with `t > 0` succeeds (no error, no
undefined entries: the division is guarded), the all-zero row passes
through unchanged with sum 0, and every row of positive sum is rescaled
to sum exactly `t`. -/
theorem normalize_zero_row_guard (exp : Experiment) (t : ℚ) (ht : 0 < t)
    (hnn : ∀ row ∈ exp.data, ∀ x ∈ row, 0 ≤ x)
    (z : List ℚ) (_hz : z ∈ exp.data) (_hzz : ∀ x ∈ z, x = 0) :
    ∃ e, normalize exp (PyNum.num t) 0 = Except.ok e ∧
      List.Forall₂ (fun row row' =>
        ((∀ x ∈ row, x = 0) → row' = row ∧ row'.sum = 0) ∧
        (0 < row.sum → row'.sum = t)) exp.data e.data := by
  have hne : normalize exp (PyNum.num t) 0 = Except.ok
      { exp with data := scaleRows t (l1NormalizeRows exp.data),
                 exp_metadata := dictSet exp.exp_metadata "normalized" t } := by
    simp [normalize, not_le.mpr ht]
  refine ⟨_, hne, ?_⟩
  · simp only [scaleRows, l1NormalizeRows, List.map_map]
    rw [List.forall₂_map_right_iff, List.forall₂_same]
    intro row hrow
    constructor
    · intro h0
      have hsum : row.sum = 0 := List.sum_eq_zero h0
      have heq := row_normalize_zero t row (hnn row hrow) hsum
      refine ⟨heq, ?_⟩
      simp only [Function.comp_apply]
      rw [heq, hsum]
    · intro hpos
      exact row_normalize_pos t row (hnn row hrow) (ne_of_gt hpos)

/-
Claim C10: save_fasta.
-/

theorem save_fastaAux_spec (fmIndex : List String) (tax : Option (String → String))
    (seqs : List String) (k : Nat) :
    save_fastaAux fmIndex tax k seqs =
      ((List.enumFrom k seqs).filter (fun p => fmIndex.contains p.2)).map
        (fun p => { header := (match tax with
                     | some f => toString p.1 ++ " " ++ f p.2
                     | none => toString p.1 ++ " " ++ p.2),
                    seq := p.2 }) := by
  induction seqs generalizing k with
  | nil => simp [save_fastaAux]
  | cons c rest ih =>
    by_cases h : fmIndex.contains c
    · simp only [save_fastaAux, h, if_pos, List.enumFrom_cons, List.filter_cons,
        List.map_cons, ih]
    · simp only [save_fastaAux, h, List.enumFrom_cons, List.filter_cons, ih]
      all_goals simp

/-- C10: `save_fasta` writes exactly one record per element of `seqs`
that occurs in the feature-metadata index, skipping absent elements while
still advancing the enumerate counter, with each header made of the
element's position in the input list followed by the feature's taxonomy
value when the taxonomy column exists and by the sequence itself
otherwise. -/
theorem save_fasta_records (fmIndex : List String) (tax : Option (String → String))
    (seqs : List String) :
    save_fasta fmIndex tax seqs =
      ((seqs.enum.filter (fun p => fmIndex.contains p.2)).map
        (fun p => { header := (match tax with
                     | some f => toString p.1 ++ " " ++ f p.2
                     | none => toString p.1 ++ " " ++ p.2),
                    seq := p.2 })) := by
  rw [save_fasta, save_fastaAux_spec, List.enum]

/-
Claim C1: the sample-metadata alignment of read.
-/

theorem applyMask_cons {α : Type} (a : α) (l : List α) (b : Bool) (m : List Bool) :
    applyMask (a :: l) (b :: m) = (if b then [a] else []) ++ applyMask l m := by
  cases b <;> simp [applyMask]

theorem applyMask_map_self {α β : Type} (l : List α) (p : α → Bool) (f : α → β) :
    applyMask (l.map f) (l.map p) = (l.filter p).map f := by
  induction l with
  | nil => rfl
  | cons a tl ih =>
    rw [List.map_cons, List.map_cons, applyMask_cons, ih, List.filter_cons]
    by_cases h : p a <;> simp [h]

theorem applyMask_self {α : Type} (l : List α) (p : α → Bool) :
    applyMask l (l.map p) = l.filter p := by
  have := applyMask_map_self l p id
  simpa using this

theorem mem_of_mem_applyMask {α : Type} {x : α} {l : List α} {m : List Bool}
    (h : x ∈ applyMask l m) : x ∈ l := by
  simp only [applyMask, List.mem_map, List.mem_filter] at h
  obtain ⟨p, ⟨hp, _⟩, rfl⟩ := h
  exact (List.of_mem_zip hp).1

/-- C1: after `read` with a sample-metadata source, (i) the metadata rows
are indexed exactly by the result's sample-id sequence, in the same
order; (ii) an id present in the metadata but absent from the data does
not appear in the result (it is dropped); (iii) an id with data but no
metadata is kept when `drop = false` and removed when `drop = true`. -/
theorem read_alignment {α : Type} (sid : List String) (md : List (String × α)) (drop : Bool) :
    ((read sid md drop).sample_metadata.map Prod.fst = (read sid md drop).sids) ∧
    (∀ i, i ∈ md.map Prod.fst → i ∉ sid → i ∉ (read sid md drop).sids) ∧
    (∀ i ∈ sid, i ∉ md.map Prod.fst →
      (i ∈ (read sid md false).sids) ∧ (i ∉ (read sid md true).sids)) := by
  refine ⟨?_, ?_, ?_⟩
  · have hcomp : Prod.fst ∘ (fun i : String => (i, List.lookup i md)) = id := rfl
    cases drop
    · simp only [read, Bool.false_eq_true, if_false, List.map_map, hcomp, List.map_id]
    · simp only [read, if_pos, applyMask_self,
        applyMask_map_self sid _ (fun i => (i, List.lookup i md)),
        List.map_map, hcomp, List.map_id]
  · intro i _ hns
    cases drop
    · simpa [read] using hns
    · simp only [read, if_pos, applyMask_self]
      intro hmem
      exact hns (List.mem_filter.mp hmem).1
  · intro i hi hnmd
    have hcon : ((md.map (fun (r : String × α) => r.1)).contains i) = false := by
      simpa using hnmd
    refine ⟨by simpa [read] using hi, ?_⟩
    simp only [read, if_pos, applyMask_self]
    intro hmem
    have h2 := (List.mem_filter.mp hmem).2
    have hmemsdiff : i ∈ sid.filter (fun j => !((md.map (fun (r : String × α) => r.1)).contains j)) := by
      rw [List.mem_filter]
      refine ⟨hi, ?_⟩
      rw [hcon]
      rfl
    have h3 : ((sid.filter (fun j => !((md.map (fun (r : String × α) => r.1)).contains j))).contains i)
        = true := by
      simpa using hmemsdiff
    rw [h3] at h2
    simp at h2

/-
Claim C3: keyword routing in the transform pipeline.
-/

theorem dictSet_lookup {β : Type} (d : List (String × β)) (k q : String) (v : β) :
    (dictSet d k v).lookup q = if q = k then some v else d.lookup q := by
  induction d with
  | nil =>
    by_cases h : q = k
    · simp [dictSet, List.lookup, h]
    · have hb : (q == k) = false := by simp [h]
      simp [dictSet, List.lookup, hb, h]
  | cons a rest ih =>
    obtain ⟨k', v'⟩ := a
    by_cases h : k' = k
    · subst h
      by_cases hq : q = k'
      · simp [dictSet, List.lookup, hq]
      · have hb : (q == k') = false := by simp [hq]
        simp [dictSet, List.lookup, hb, hq]
    · simp only [dictSet, if_neg h]
      by_cases hq : q = k'
      · have hqk : q ≠ k := fun hc => h (hq.symm.trans hc)
        have hb : (q == k') = true := by simp [hq]
        simp [List.lookup, hb, hqk]
      · have hb : (q == k') = false := by simp [hq]
        simp [List.lookup, hb, ih]

theorem dictSet_append {β : Type} (d : List (String × β)) (k : String) (v : β)
    (h : d.lookup k = none) : dictSet d k v = d ++ [(k, v)] := by
  induction d with
  | nil => rfl
  | cons a rest ih =>
    obtain ⟨k', v'⟩ := a
    by_cases hk : k' = k
    · exfalso
      rw [List.lookup_cons] at h
      have hb : (k == k') = true := by simp [hk.symm]
      rw [hb] at h
      exact Option.noConfusion h
    · rw [List.lookup_cons] at h
      have hkk : k ≠ k' := fun hc => hk hc.symm
      have hb : (k == k') = false := by simp [hkk]
      rw [hb] at h
      simp only [dictSet, if_neg hk, List.cons_append, ih h]

theorem getParams_setParam (d : List (String × List (String × ℚ))) (t p : String) (v : ℚ)
    (n : String) :
    getParams (setParam d t p v) n =
      if n = t then dictSet (getParams d t) p v else getParams d n := by
  induction d with
  | nil =>
    by_cases h : n = t
    · simp [setParam, getParams, List.lookup, dictSet, h]
    · have hb : (n == t) = false := by simp [h]
      simp [setParam, getParams, List.lookup, hb, h]
  | cons a rest ih =>
    obtain ⟨k, sub⟩ := a
    by_cases hk : k = t
    · subst hk
      by_cases hn : n = k
      · simp [setParam, getParams, List.lookup, hn]
      · have hb : (n == k) = false := by simp [hn]
        simp [setParam, getParams, List.lookup, hb, hn]
    · simp only [setParam, if_neg hk]
      by_cases hn : n = k
      · have hnt : n ≠ t := fun hc => hk (hn.symm.trans hc)
        have hb : (n == k) = true := by simp [hn]
        simp [getParams, List.lookup, hb, hnt]
      · have hb : (n == k) = false := by simp [hn]
        have htk : t ≠ k := fun hc => hk hc.symm
        have hbt : (t == k) = false := by simp [htk]
        simp only [getParams, List.lookup, hb, hbt] at ih ⊢
        exact ih

theorem getParams_foldl (routed : List (String × String × ℚ)) :
    ∀ (d : List (String × List (String × ℚ))) (n : String),
    routed.Pairwise (fun a b => (a.1, a.2.1) ≠ (b.1, b.2.1)) →
    (∀ r ∈ routed, (getParams d r.1).lookup r.2.1 = none) →
    getParams (routed.foldl (fun acc r => setParam acc r.1 r.2.1 r.2.2) d) n =
      getParams d n ++
        routed.filterMap (fun r => if r.1 = n then some (r.2.1, r.2.2) else none) := by
  induction routed with
  | nil => intro d n _ _; simp
  | cons r rest ih =>
    intro d n hpw hd
    have hpw' := (List.pairwise_cons.mp hpw)
    rw [List.foldl_cons]
    rw [ih (setParam d r.1 r.2.1 r.2.2) n hpw'.2 ?side]
    case side =>
      intro r' hr'
      rw [getParams_setParam]
      by_cases h : r'.1 = r.1
      · rw [if_pos h, dictSet_lookup]
        have hne : r'.2.1 ≠ r.2.1 := by
          intro hc
          exact hpw'.1 r' hr' (Prod.ext h.symm hc.symm)
        rw [if_neg hne, ← h]
        exact hd r' (List.mem_cons_of_mem r hr')
      · rw [if_neg h]
        exact hd r' (List.mem_cons_of_mem r hr')
    · rw [getParams_setParam, List.filterMap_cons]
      by_cases hn : n = r.1
      · subst hn
        rw [if_pos rfl]
        have hfm : (if r.1 = r.1 then some (r.2.1, r.2.2) else none) =
            some (r.2.1, r.2.2) := if_pos rfl
        rw [hfm, dictSet_append _ _ _ (hd r (List.mem_cons_self r rest))]
        simp
      · rw [if_neg hn]
        have hfm : (if r.1 = n then some (r.2.1, r.2.2) else none) = none :=
          if_neg (fun hc => hn hc.symm)
        rw [hfm]

theorem routeAll_error_of_inplace (kwargs : List (String × ℚ))
    (h : ∃ kv ∈ kwargs, ∃ n, splitKey kv.1 = [n, "inplace"]) :
    ∃ msg, routeAll kwargs = Except.error msg := by
  induction kwargs with
  | nil => obtain ⟨kv, hkv, _⟩ := h; cases hkv
  | cons kv rest ih =>
    obtain ⟨kv', hkv', n, hn⟩ := h
    rcases List.mem_cons.mp hkv' with rfl | hmem
    · refine ⟨"You should not give inplace argument.", ?_⟩
      simp [routeAll, routeOne, hn]
    · rcases hro : routeOne kv with e | r
      · exact ⟨e, by simp [routeAll, hro]⟩
      · obtain ⟨msg, hmsg⟩ := ih ⟨kv', hmem, n, hn⟩
        exact ⟨msg, by simp [routeAll, hro, hmsg]⟩

theorem routeAll_ok (kwargs : List (String × ℚ))
    (h : ∀ kv ∈ kwargs, ∃ t p, splitKey kv.1 = [t, p] ∧ p ≠ "inplace") :
    routeAll kwargs = Except.ok (kwargs.map routedTriple) := by
  induction kwargs with
  | nil => rfl
  | cons kv rest ih =>
    obtain ⟨t, p, hs, hp⟩ := h kv (List.mem_cons_self kv rest)
    have hone : routeOne kv = Except.ok (t, p, kv.2) := by
      simp [routeOne, hs, hp]
    have htrip : routedTriple kv = (t, p, kv.2) := by
      simp [routedTriple, hs]
    rw [List.map_cons, htrip]
    simp [routeAll, hone, ih (fun kv' hkv' => h kv' (List.mem_cons_of_mem kv hkv'))]

/-- C3: if any routed keyword key splits as `"<name>__inplace"`,
`transform` raises (the whole kwargs loop runs before any step is
applied, so no step is executed first); otherwise, with well-formed and
(as Python dict keys are) pairwise-distinct keys, every key
`"<name>__<param>"` is stripped of its prefix and handed as `param` only
to the step whose function name is `name`, and the steps are folded over
the experiment in list order. -/
theorem transform_routing (exp : Experiment) (steps : List TStep)
    (kwargs : List (String × ℚ)) :
    ((∃ kv ∈ kwargs, ∃ n, splitKey kv.1 = [n, "inplace"]) →
      ∃ msg, transform exp steps kwargs = Except.error msg) ∧
    ((∀ kv ∈ kwargs, ∃ t p, splitKey kv.1 = [t, p] ∧ p ≠ "inplace") →
     (kwargs.map (fun kv => splitKey kv.1)).Nodup →
      transform exp steps kwargs =
        Except.ok (steps.foldl (fun e step => step.fn e (routedFor kwargs step.name)) exp)) := by
  constructor
  · intro h
    obtain ⟨msg, hmsg⟩ := routeAll_error_of_inplace kwargs h
    exact ⟨msg, by simp [transform, hmsg]⟩
  · intro h1 h2
    have hroute := routeAll_ok kwargs h1
    have hpw : (kwargs.map routedTriple).Pairwise
        (fun a b => (a.1, a.2.1) ≠ (b.1, b.2.1)) := by
      rw [List.pairwise_map]
      refine List.Pairwise.imp_of_mem ?_ (List.pairwise_map.mp h2)
      intro a b ha hb hne hc
      obtain ⟨ta, pa, hsa, _⟩ := h1 a ha
      obtain ⟨tb, pb, hsb, _⟩ := h1 b hb
      simp only [routedTriple, hsa, hsb, Prod.mk.injEq] at hc
      apply hne
      rw [hsa, hsb, hc.1, hc.2]
    have hparams : ∀ name, getParams (buildParams (kwargs.map routedTriple)) name =
        routedFor kwargs name := by
      intro name
      rw [buildParams, getParams_foldl (kwargs.map routedTriple) [] name hpw
        (fun r _ => rfl), show getParams [] name = [] from rfl, List.nil_append,
        List.filterMap_map]
      have hunf : routedFor kwargs name = kwargs.filterMap (fun kv =>
          match splitKey kv.1 with
          | [t, p] => if t = name then some (p, kv.2) else none
          | _ => none) := rfl
      rw [hunf]
      refine List.filterMap_congr fun kv hkv => ?_
      obtain ⟨t, p, hs, _⟩ := h1 kv hkv
      simp only [Function.comp, routedTriple, hs]
    have hfun : (fun e (step : TStep) =>
        step.fn e (getParams (buildParams (kwargs.map routedTriple)) step.name)) =
        fun e step => step.fn e (routedFor kwargs step.name) := by
      funext e step
      rw [hparams]
    simp only [transform, hroute, hfun]

/-
Claim C4: sort_ids is a stable partition on identifiers.
-/

theorem selectPositions_append {α : Type} (l : List α) (p1 p2 : List Nat) :
    selectPositions l (p1 ++ p2) = selectPositions l p1 ++ selectPositions l p2 :=
  List.filterMap_append _ _ _

theorem selectPositions_okpos (index ids : List String) :
    selectPositions index (ids.filterMap (fun cid =>
      if index.contains cid then some (index.indexOf cid) else none)) =
      ids.filter (fun cid => index.contains cid) := by
  induction ids with
  | nil => rfl
  | cons cid rest ih =>
    rw [List.filterMap_cons, List.filter_cons]
    by_cases h : index.contains cid
    · have hmem : cid ∈ index := by simpa using h
      rw [if_pos h]
      have hsel : selectPositions index (index.indexOf cid ::
          rest.filterMap (fun cid => if index.contains cid then
            some (index.indexOf cid) else none)) =
          cid :: selectPositions index (rest.filterMap (fun cid =>
            if index.contains cid then some (index.indexOf cid) else none)) := by
        simp only [selectPositions, List.filterMap_cons, List.getElem?_indexOf hmem]
      rw [hsel, ih, if_pos h]
    · rw [if_neg h, ih, if_neg h]

theorem selectPositions_prefix_of_lt {α : Type} (l l2 : List α) (pos : List Nat)
    (h : ∀ i ∈ pos, i < l.length) :
    selectPositions (l ++ l2) pos = selectPositions l pos := by
  refine List.filterMap_congr fun i hi => ?_
  rw [List.getElem?_append, if_pos (h i hi)]

theorem selectPositions_range_filter {α : Type} (l : List α) (p : Nat → Bool) (q : α → Bool)
    (hpq : ∀ (i : Nat) (hi : i < l.length), p i = q l[i]) :
    selectPositions l ((List.range l.length).filter p) = l.filter q := by
  induction l using List.reverseRecOn with
  | nil => rfl
  | append_singleton l a ih =>
    have hlen : (l ++ [a]).length = l.length + 1 := by simp
    rw [hlen, List.range_succ, List.filter_append, selectPositions_append,
      List.filter_append]
    have hchunk1 : selectPositions (l ++ [a]) ((List.range l.length).filter p) =
        l.filter q := by
      rw [selectPositions_prefix_of_lt l [a] _ (fun i hi => by
        have := List.mem_filter.mp hi
        simpa using List.mem_range.mp this.1)]
      exact ih (fun i hi => by
        rw [hpq i (by simp; omega)]
        congr 1
        exact List.getElem_append_left hi)
    have hlast : (l ++ [a])[l.length] = a := by
      have h := List.getElem?_concat_length l a
      rw [List.getElem?_eq_getElem (by simp)] at h
      exact Option.some_inj.mp h
    have hpa : p l.length = q a := by
      rw [hpq l.length (by simp), hlast]
    have hchunk2 : selectPositions (l ++ [a]) ([l.length].filter p) =
        [a].filter q := by
      rw [List.filter_singleton, List.filter_singleton, hpa]
      by_cases hqa : q a = true
      · rw [hqa, cond_true, cond_true]
        simp only [selectPositions, List.filterMap_cons, List.getElem?_concat_length]
        rfl
      · have hqa' : q a = false := by simpa using hqa
        rw [hqa', cond_false, cond_false]
        rfl
    rw [hchunk1, hchunk2]

theorem sort_idsPos_select (index ids : List String) (hnd : index.Nodup) :
    selectPositions index (sort_idsPos index ids) =
      ids.filter (fun cid => index.contains cid) ++
        index.filter (fun x => !(ids.contains x)) := by
  rw [sort_idsPos, selectPositions_append, selectPositions_okpos]
  congr 1
  refine selectPositions_range_filter index _ _ ?_
  intro i hi
  have hiff : (ids.filterMap (fun cid => if index.contains cid then
      some (index.indexOf cid) else none)).contains i = ids.contains index[i] := by
    by_cases hmem : index[i] ∈ ids
    · have h1 : i ∈ ids.filterMap (fun cid => if index.contains cid then
          some (index.indexOf cid) else none) := by
        rw [List.mem_filterMap]
        refine ⟨index[i], hmem, ?_⟩
        rw [if_pos (by simp), List.indexOf_getElem hnd i hi]
      have h2 : ids.contains index[i] = true := by simpa using hmem
      rw [h2]
      simpa using h1
    · have h1 : i ∉ ids.filterMap (fun cid => if index.contains cid then
          some (index.indexOf cid) else none) := by
        rw [List.mem_filterMap]
        rintro ⟨cid, hcid, hf⟩
        by_cases hc : index.contains cid
        · rw [if_pos hc, Option.some.injEq] at hf
          subst hf
          have hlt : List.indexOf cid index < index.length :=
            List.indexOf_lt_length.mpr (by simpa using hc)
          refine hmem ?_
          rw [List.getElem_indexOf hlt]
          exact hcid
        · rw [if_neg hc] at hf
          exact Option.noConfusion hf
      have h2 : ids.contains index[i] = false := by simpa using hmem
      rw [h2]
      simpa using h1
  rw [hiff]

/-- C4: `sort_ids` puts the requested identifiers that exist in the
experiment first, in the order given, followed by all remaining
identifiers in their original relative order — on the feature axis
(axis 1) and on the sample axis (axis 0) alike. -/
theorem sort_ids_partition (exp : Experiment) (ids : List String)
    (hs : exp.sample_metadata.Nodup) (hf : exp.feature_metadata.Nodup) :
    (sort_ids exp ids 1).feature_metadata =
        ids.filter (fun i => exp.feature_metadata.contains i) ++
          exp.feature_metadata.filter (fun x => !(ids.contains x)) ∧
    (sort_ids exp ids 0).sample_metadata =
        ids.filter (fun i => exp.sample_metadata.contains i) ++
          exp.sample_metadata.filter (fun x => !(ids.contains x)) := by
  constructor
  · show selectPositions exp.feature_metadata
        (sort_idsPos exp.feature_metadata ids) = _
    exact sort_idsPos_select _ _ hf
  · show selectPositions exp.sample_metadata
        (sort_idsPos exp.sample_metadata ids) = _
    exact sort_idsPos_select _ _ hs

/-
Claim C5: sort_by_data.  The ordering is proved for every argsort
satisfying numpy's documented contract; stability of ties is refuted,
since the contract (default quicksort) does not provide it.
-/

theorem selectPositions_eq_map_getD (vals : List ℚ) (perm : List Nat)
    (h : ∀ i ∈ perm, i < vals.length) :
    selectPositions vals perm = perm.map (fun i => vals.getD i 0) := by
  induction perm with
  | nil => rfl
  | cons i rest ih =>
    have hi : i < vals.length := h i (by simp)
    have hsel : selectPositions vals (i :: rest) =
        vals[i] :: selectPositions vals rest := by
      simp only [selectPositions, List.filterMap_cons, List.getElem?_eq_getElem hi]
    rw [hsel, List.map_cons, ih (fun j hj => h j (List.mem_cons_of_mem _ hj))]
    congr 1
    rw [List.getD_eq_getElem?_getD, List.getElem?_eq_getElem hi]
    rfl

/-- C5 (amended): `sort_by_data` computes one scalar per row (axis 0) or
per column (axis 1) with `key` on the subset-restricted opposite axis,
orders the rows/columns by that scalar ascending — with ties in whatever
order `np.argsort`'s default (unstable) quicksort yields — reverses the
position list when `reverse = True`, and applies the result via
`reorder`.  Stated for every `argsort` satisfying numpy's documented
contract (`IsSortingPerm`). -/
theorem sort_by_data_sorts (argsort : List ℚ → List Nat) (key : List ℚ → ℚ)
    (exp : Experiment) (axis : Nat) (subset : Option (List Nat)) (reverse : Bool)
    (h : IsSortingPerm (sortValues key exp axis subset)
      (argsort (sortValues key exp axis subset))) :
    (sort_by_data argsort key exp axis subset reverse = reorder exp
        (if reverse then (argsort (sortValues key exp axis subset)).reverse
         else argsort (sortValues key exp axis subset)) axis) ∧
    (reverse = false →
      (selectPositions (sortValues key exp axis subset)
        (argsort (sortValues key exp axis subset))).Sorted (· ≤ ·)) ∧
    (reverse = true →
      (selectPositions (sortValues key exp axis subset)
        ((argsort (sortValues key exp axis subset)).reverse)).Sorted (· ≥ ·)) := by
  obtain ⟨hperm, hsorted⟩ := h
  have hlt : ∀ i ∈ argsort (sortValues key exp axis subset),
      i < (sortValues key exp axis subset).length := by
    intro i hi
    simpa using hperm.mem_iff.mp hi
  refine ⟨rfl, fun _ => ?_, fun _ => ?_⟩
  · rw [selectPositions_eq_map_getD _ _ hlt]
    exact hsorted
  · rw [selectPositions_eq_map_getD _ _ (fun i hi => hlt i (List.mem_reverse.mp hi)),
      List.map_reverse]
    exact List.pairwise_reverse.mpr hsorted

/-- C5 counterexample: on two samples with tied key values, an argsort
output that satisfies numpy's documented contract (sorted ascending,
permutation of the range) can reverse the tied pair, so `sort_by_data`
does not guarantee the stable tie order the claim asserts: the samples
end up in order `["S2", "S1"]` instead of the original `["S1", "S2"]`. -/
theorem sort_by_data_unstable_cex :
    IsSortingPerm (sortValues meanKey ⟨[[1], [1]], ["S1", "S2"], ["F1"], []⟩ 0 none)
      (tieBreakArgsort (sortValues meanKey ⟨[[1], [1]], ["S1", "S2"], ["F1"], []⟩ 0 none)) ∧
    (sort_by_data tieBreakArgsort meanKey
      ⟨[[1], [1]], ["S1", "S2"], ["F1"], []⟩ 0 none false).sample_metadata = ["S2", "S1"] ∧
    (["S2", "S1"] : List String) ≠ ["S1", "S2"] := by
  have hv : sortValues meanKey ⟨[[1], [1]], ["S1", "S2"], ["F1"], []⟩ 0 none = [1, 1] := by
    norm_num [sortValues, meanKey]
  refine ⟨?_, ?_, by decide⟩
  · rw [hv]
    constructor
    · decide
    · rw [show tieBreakArgsort [(1 : ℚ), 1] = [1, 0] from rfl]
      rw [show ([1, 0].map (fun i => [(1 : ℚ), 1].getD i 0)) = [1, 1] from rfl]
      exact List.sorted_cons.mpr ⟨by simp, List.sorted_singleton 1⟩
  · rfl

/-
Concrete witnesses: each instantiates the corresponding theorem on a
small explicit experiment and discharges its hypotheses there.
-/

theorem read_alignment_witness :
    ((read ["S1", "S2", "S3"] [("S2", (5 : ℚ)), ("S4", 7)] true).sample_metadata.map Prod.fst =
        (read ["S1", "S2", "S3"] [("S2", (5 : ℚ)), ("S4", 7)] true).sids) ∧
    (∀ i, i ∈ [("S2", (5 : ℚ)), ("S4", 7)].map Prod.fst → i ∉ ["S1", "S2", "S3"] →
      i ∉ (read ["S1", "S2", "S3"] [("S2", (5 : ℚ)), ("S4", 7)] true).sids) ∧
    (∀ i ∈ ["S1", "S2", "S3"], i ∉ [("S2", (5 : ℚ)), ("S4", 7)].map Prod.fst →
      (i ∈ (read ["S1", "S2", "S3"] [("S2", (5 : ℚ)), ("S4", 7)] false).sids) ∧
      (i ∉ (read ["S1", "S2", "S3"] [("S2", (5 : ℚ)), ("S4", 7)] true).sids)) :=
  read_alignment ["S1", "S2", "S3"] [("S2", (5 : ℚ)), ("S4", 7)] true

theorem normalize_rows_sum_to_total_witness :
    ((0 : ℚ) < 10 ∧
      (∀ row ∈ ([[1, 2, 3], [0, 0, 0]] : List (List ℚ)), ∀ x ∈ row, (0 : ℚ) ≤ x)) ∧
    (∃ e, normalize ⟨[[1, 2, 3], [0, 0, 0]], ["S1", "S2"], ["F1", "F2", "F3"], []⟩
        (PyNum.num 10) 0 = Except.ok e ∧
      List.Forall₂ (fun row row' =>
        (row.sum ≠ 0 → row'.sum = 10) ∧ (row.sum = 0 → row' = row))
        ([[1, 2, 3], [0, 0, 0]] : List (List ℚ)) e.data ∧
      e.exp_metadata.lookup "normalized" = some 10 ∧
      e.sample_metadata = ["S1", "S2"] ∧
      e.feature_metadata = ["F1", "F2", "F3"] ∧
      (∀ b, ∃ msg, normalize ⟨[[1, 2, 3], [0, 0, 0]], ["S1", "S2"], ["F1", "F2", "F3"], []⟩
        (PyNum.bool b) 0 = Except.error msg) ∧
      (∀ t', t' ≤ 0 → ∃ msg, normalize
        ⟨[[1, 2, 3], [0, 0, 0]], ["S1", "S2"], ["F1", "F2", "F3"], []⟩
        (PyNum.num t') 0 = Except.error msg)) :=
  ⟨⟨by norm_num, by decide⟩,
    normalize_rows_sum_to_total ⟨[[1, 2, 3], [0, 0, 0]], ["S1", "S2"], ["F1", "F2", "F3"], []⟩
      10 (by norm_num) (by decide)⟩

theorem transform_routing_witness :
    ((∃ kv ∈ [("log_n__inplace", (3 : ℚ))], ∃ n, splitKey kv.1 = [n, "inplace"]) ∧
      (∃ msg, transform ⟨[[1]], ["S"], ["F"], []⟩ []
        [("log_n__inplace", (3 : ℚ))] = Except.error msg)) ∧
    ((∀ kv ∈ [("log_n__n", (3 : ℚ))], ∃ t p, splitKey kv.1 = [t, p] ∧ p ≠ "inplace") ∧
      ([("log_n__n", (3 : ℚ))].map (fun kv => splitKey kv.1)).Nodup ∧
      transform ⟨[[1]], ["S"], ["F"], []⟩ [⟨"log_n", fun e _ => e⟩] [("log_n__n", (3 : ℚ))] =
        Except.ok ([(⟨"log_n", fun e _ => e⟩ : TStep)].foldl
          (fun e step => step.fn e (routedFor [("log_n__n", (3 : ℚ))] step.name))
          ⟨[[1]], ["S"], ["F"], []⟩)) := by
  have h1 : ∃ kv ∈ [("log_n__inplace", (3 : ℚ))], ∃ n, splitKey kv.1 = [n, "inplace"] :=
    ⟨("log_n__inplace", (3 : ℚ)), by simp, "log_n", by decide⟩
  have h2 : ∀ kv ∈ [("log_n__n", (3 : ℚ))], ∃ t p, splitKey kv.1 = [t, p] ∧ p ≠ "inplace" := by
    intro kv hkv
    rw [List.mem_singleton] at hkv
    subst hkv
    exact ⟨"log_n", "n", by decide, by decide⟩
  have h3 : ([("log_n__n", (3 : ℚ))].map (fun kv => splitKey kv.1)).Nodup := by simp
  exact ⟨⟨h1, (transform_routing ⟨[[1]], ["S"], ["F"], []⟩ [] _).1 h1⟩,
    h2, h3, (transform_routing ⟨[[1]], ["S"], ["F"], []⟩ [⟨"log_n", fun e _ => e⟩] _).2 h2 h3⟩

theorem sort_ids_partition_witness :
    ((["S1"] : List String).Nodup ∧
      (["F1", "F2", "F3", "F4", "F5"] : List String).Nodup) ∧
    ((sort_ids ⟨[[1, 2, 3, 4, 5]], ["S1"], ["F1", "F2", "F3", "F4", "F5"], []⟩
        ["F3", "F1"] 1).feature_metadata =
      ["F3", "F1"].filter (fun i => (["F1", "F2", "F3", "F4", "F5"] : List String).contains i) ++
        (["F1", "F2", "F3", "F4", "F5"] : List String).filter
          (fun x => !((["F3", "F1"] : List String).contains x)) ∧
    (sort_ids ⟨[[1, 2, 3, 4, 5]], ["S1"], ["F1", "F2", "F3", "F4", "F5"], []⟩
        ["F3", "F1"] 0).sample_metadata =
      ["F3", "F1"].filter (fun i => (["S1"] : List String).contains i) ++
        (["S1"] : List String).filter (fun x => !((["F3", "F1"] : List String).contains x))) :=
  ⟨⟨by decide, by decide⟩,
    sort_ids_partition ⟨[[1, 2, 3, 4, 5]], ["S1"], ["F1", "F2", "F3", "F4", "F5"], []⟩
      ["F3", "F1"] (by decide) (by decide)⟩

theorem sort_by_data_sorts_witness :
    IsSortingPerm (sortValues meanKey ⟨[[1], [2]], ["S1", "S2"], ["F1"], []⟩ 0 none)
      (List.range (sortValues meanKey ⟨[[1], [2]], ["S1", "S2"], ["F1"], []⟩ 0 none).length) ∧
    ((sort_by_data (fun v => List.range v.length) meanKey
        ⟨[[1], [2]], ["S1", "S2"], ["F1"], []⟩ 0 none false = reorder
          ⟨[[1], [2]], ["S1", "S2"], ["F1"], []⟩
          (if false then (List.range (sortValues meanKey
              ⟨[[1], [2]], ["S1", "S2"], ["F1"], []⟩ 0 none).length).reverse
           else List.range (sortValues meanKey
              ⟨[[1], [2]], ["S1", "S2"], ["F1"], []⟩ 0 none).length) 0) ∧
      (false = false →
        (selectPositions (sortValues meanKey ⟨[[1], [2]], ["S1", "S2"], ["F1"], []⟩ 0 none)
          (List.range (sortValues meanKey
            ⟨[[1], [2]], ["S1", "S2"], ["F1"], []⟩ 0 none).length)).Sorted (· ≤ ·)) ∧
      (false = true →
        (selectPositions (sortValues meanKey ⟨[[1], [2]], ["S1", "S2"], ["F1"], []⟩ 0 none)
          ((List.range (sortValues meanKey
            ⟨[[1], [2]], ["S1", "S2"], ["F1"], []⟩ 0 none).length).reverse)).Sorted (· ≥ ·))) := by
  have hv : sortValues meanKey ⟨[[1], [2]], ["S1", "S2"], ["F1"], []⟩ 0 none = [1, 2] := by
    norm_num [sortValues, meanKey]
  have h : IsSortingPerm (sortValues meanKey ⟨[[1], [2]], ["S1", "S2"], ["F1"], []⟩ 0 none)
      (List.range (sortValues meanKey ⟨[[1], [2]], ["S1", "S2"], ["F1"], []⟩ 0 none).length) := by
    rw [hv]
    exact ⟨by decide, by decide⟩
  exact ⟨h, sort_by_data_sorts (fun v => List.range v.length) meanKey
    ⟨[[1], [2]], ["S1", "S2"], ["F1"], []⟩ 0 none false h⟩

theorem normalize_by_subset_features_spec_witness :
    (∀ row ∈ ([[1, 2]] : List (List ℚ)),
      maskedRowSum (subsetMask ["F1", "F2"] ["F2"] true) row ≠ 0) ∧
    ((normalize_by_subset_features ⟨[[1, 2]], ["S1"], ["F1", "F2"], []⟩ ["F2"] 10 true).data =
        ([[1, 2]] : List (List ℚ)).map (fun row => row.map (fun x =>
          10 * x / maskedRowSum (subsetMask ["F1", "F2"] ["F2"] true) row)) ∧
      (∀ row' ∈ (normalize_by_subset_features
          ⟨[[1, 2]], ["S1"], ["F1", "F2"], []⟩ ["F2"] 10 true).data,
        maskedRowSum (subsetMask ["F1", "F2"] ["F2"] true) row' = 10) ∧
      (normalize_by_subset_features ⟨[[1, 1]], ["S1"], ["F1", "F2"], []⟩
        ["F2"] 10 true).data.map List.sum ≠ [10]) := by
  have hnz : ∀ row ∈ ([[1, 2]] : List (List ℚ)),
      maskedRowSum (subsetMask ["F1", "F2"] ["F2"] true) row ≠ 0 := by
    simp [maskedRowSum, subsetMask]
  exact ⟨hnz, normalize_by_subset_features_spec
    ⟨[[1, 2]], ["S1"], ["F1", "F2"], []⟩ ["F2"] 10 hnz⟩

theorem filter_by_metadata_partition_witness :
    (([("S1", (1 : ℚ)), ("S2", 2)].map Prod.fst).Nodup ∧
      (∀ i, (i ∈ (filter_by_metadata [("S1", (1 : ℚ)), ("S2", 2)] [1] false).map Prod.fst ∨
             i ∈ (filter_by_metadata [("S1", (1 : ℚ)), ("S2", 2)] [1] true).map Prod.fst) ↔
            i ∈ [("S1", (1 : ℚ)), ("S2", 2)].map Prod.fst) ∧
      (∀ i, ¬(i ∈ (filter_by_metadata [("S1", (1 : ℚ)), ("S2", 2)] [1] false).map Prod.fst ∧
              i ∈ (filter_by_metadata [("S1", (1 : ℚ)), ("S2", 2)] [1] true).map Prod.fst)) ∧
      ((∀ r ∈ [("S1", (1 : ℚ)), ("S2", 2)], r.2 ∉ ([1] : List ℚ)) →
        filter_by_metadata [("S1", (1 : ℚ)), ("S2", 2)] [1] false = [])) :=
  ⟨by decide, filter_by_metadata_partition [("S1", (1 : ℚ)), ("S2", 2)] [1] (by decide)⟩

theorem normalize_zero_row_guard_witness :
    ((0 : ℚ) < 10 ∧
      (∀ row ∈ ([[1, 2, 3], [0, 0, 0]] : List (List ℚ)), ∀ x ∈ row, (0 : ℚ) ≤ x) ∧
      ([0, 0, 0] : List ℚ) ∈ ([[1, 2, 3], [0, 0, 0]] : List (List ℚ)) ∧
      (∀ x ∈ ([0, 0, 0] : List ℚ), x = 0)) ∧
    (∃ e, normalize ⟨[[1, 2, 3], [0, 0, 0]], ["S1", "S2"], ["F1", "F2", "F3"], []⟩
        (PyNum.num 10) 0 = Except.ok e ∧
      List.Forall₂ (fun row row' =>
        ((∀ x ∈ row, x = 0) → row' = row ∧ row'.sum = 0) ∧
        (0 < row.sum → row'.sum = 10))
        ([[1, 2, 3], [0, 0, 0]] : List (List ℚ)) e.data) :=
  ⟨⟨by norm_num, by decide, by decide, by decide⟩,
    normalize_zero_row_guard ⟨[[1, 2, 3], [0, 0, 0]], ["S1", "S2"], ["F1", "F2", "F3"], []⟩
      10 (by norm_num) (by decide) [0, 0, 0] (by decide) (by decide)⟩

theorem rescale_frame_effect_witness :
    ((([[1, 2], [3, 4]] : List (List ℚ)).map List.sum).sum ≠ 0) ∧
    (∃ e, rescale ⟨[[1, 2], [3, 4]], ["S1", "S2"], ["F1", "F2"], []⟩ (PyNum.num 0) 0 =
        Except.ok e ∧
      e.sample_metadata = ["S1", "S2"] ∧
      e.feature_metadata = ["F1", "F2"] ∧
      e.exp_metadata = [] ∧
      e.exp_metadata.lookup "normalized" = List.lookup "normalized" ([] : List (String × ℚ)) ∧
      e.data = ([[1, 2], [3, 4]] : List (List ℚ)).map (List.map (fun x => x *
        (0 / ((([[1, 2], [3, 4]] : List (List ℚ)).map List.sum).sum /
          (((([[1, 2], [3, 4]] : List (List ℚ)).map List.sum).length : ℚ))))))) :=
  ⟨by norm_num, rescale_frame_effect ⟨[[1, 2], [3, 4]], ["S1", "S2"], ["F1", "F2"], []⟩
    0 0 (by norm_num)⟩

end Calour
